import Mathlib

/-!
Shallow embedding of `src/image_recolour/brand_adapter.py`
(class `AdvancedBrandingColorAdapter`), the raster-recoloring core of the
`map_art` repository, together with theorems settling the specification
claims about it.

Modelling conventions:
* `uint8` channel values are embedded as `ℕ` (source buffers are numpy
  `uint8` arrays, so all channel values are `< 256`).
* numpy's `np.linalg.norm(palette - color, axis=1)` computes Euclidean
  distances as floating-point square roots of integer squared distances.
  All the source ever does with these distances is compare them with each
  other (`np.argmin`) or with the constant `5` (`np.min(...) > 5`).
  Since `Real.sqrt` is strictly monotone and the squared distances are
  integers (max `3 * 255^2`, far below any double-precision rounding
  boundary), both comparisons are embedded exactly on the integer
  squared distances (`argmin` over `dist2`, and `dist2 > 25`).
* `np.argmin` returns the first index attaining the minimum; `find_closest`
  reproduces this first-minimum tie-break.
* The dithering stage's floating-point working array is embedded over `ℚ`;
  every quantity it manipulates is a dyadic rational of tiny magnitude,
  which double precision represents exactly on the inputs evaluated here.
-/

/-- An RGB colour, one numpy row of a palette array. -/
structure Color where
  r : ℕ
  g : ℕ
  b : ℕ
deriving DecidableEq, Repr

/-- An RGBA pixel of the `uint8` image array. -/
structure Pixel where
  r : ℕ
  g : ℕ
  b : ℕ
  a : ℕ
deriving DecidableEq, Repr

/-- A pixel buffer: the 2D numpy array as a list of rows. -/
abbrev Img := List (List Pixel)

/-- Source: `self.primary_color = np.array([7, 27, 44])`. -/
def primary_color : Color := ⟨7, 27, 44⟩

/-- Source: `self.accent_color = np.array([255, 184, 28])`. -/
def accent_color : Color := ⟨255, 184, 28⟩

/-- Source: `self.white_color = np.array([255, 255, 255])`. -/
def white_color : Color := ⟨255, 255, 255⟩

/-- The three intermediate blend colours of the extended palette. -/
def blend_colors : List Color := [⟨131, 155, 172⟩, ⟨131, 105, 36⟩, ⟨255, 219, 141⟩]

/-- Source: `self.brand_palette`: core colours followed by the three blends. -/
def brand_palette : List Color :=
  [primary_color, accent_color, white_color] ++ blend_colors

/-- Source: `self.core_palette`: primary, accent, white. -/
def core_palette : List Color := [primary_color, accent_color, white_color]

/-- Squared Euclidean RGB distance (the square of `np.linalg.norm`). -/
def dist2 (p q : Color) : ℤ :=
  ((p.r : ℤ) - q.r) ^ 2 + ((p.g : ℤ) - q.g) ^ 2 + ((p.b : ℤ) - q.b) ^ 2

/-- Source: `palette[np.argmin(distances)]`: first entry of `palette` at minimal
distance from `c` (first-minimum tie-break, like `np.argmin`). -/
def find_closest (palette : List Color) (c : Color) : Color :=
  match palette with
  | [] => c
  | p :: ps => ps.foldl (fun best q => if dist2 q c < dist2 best c then q else best) p

/-- Source: `find_closest_brand_color(color, use_extended_palette)`. -/
def find_closest_brand_color (c : Color) (use_extended_palette : Bool) : Color :=
  find_closest (if use_extended_palette then brand_palette else core_palette) c

/-- Source: `np.min(distances)` on squared distances: minimum squared distance
from `c` to the palette (`0` for the empty palette, which never occurs). -/
def min_dist2 (palette : List Color) (c : Color) : ℤ :=
  match palette with
  | [] => 0
  | p :: ps => ps.foldl (fun m q => min m (dist2 q c)) (dist2 p c)

/-- The RGB part of a pixel. -/
def Pixel.rgb (p : Pixel) : Color := ⟨p.r, p.g, p.b⟩

/-- Source: `result[y, x, :3] = new_color`: replace the RGB channels, keep alpha. -/
def Pixel.withRGB (p : Pixel) (c : Color) : Pixel := ⟨c.r, c.g, c.b, p.a⟩

/-- The per-pixel body of `simple_color_mapping`: pixels with `alpha > 0`
are replaced by the closest extended-palette colour. -/
def simplePixel (p : Pixel) : Pixel :=
  if 0 < p.a then p.withRGB (find_closest_brand_color p.rgb true) else p

/-- Source: `simple_color_mapping(img_array)` (lines 227-239): naive
nearest-colour mapping of every opaque pixel to the extended palette. -/
def simple_color_mapping (img : Img) : Img :=
  img.map (fun row => row.map simplePixel)

/-- The per-pixel body of `final_brand_mapping`: an opaque pixel whose
minimal core-palette distance exceeds 5 (squared distance exceeds 25) is
replaced by the closest core colour, otherwise left unchanged. -/
def canonPixel (p : Pixel) : Pixel :=
  if 0 < p.a ∧ 25 < min_dist2 core_palette p.rgb then
    p.withRGB (find_closest_brand_color p.rgb false)
  else p

/-- Source: `final_brand_mapping(img_array)` (lines 241-257): the canonicalization
pass forcing opaque pixels back to the core palette. -/
def final_brand_mapping (img : Img) : Img :=
  img.map (fun row => row.map canonPixel)

/-- Pixel lookup: `img_array[y, x]` (as an `Option` for out-of-bounds). -/
def pixelAt (img : Img) (y x : ℕ) : Option Pixel :=
  (img.get? y).bind (fun row => row.get? x)

/-- A pixel of the float working array of `floyd_steinberg_dither`
(`result = img_array.copy().astype(float)`).  Only the RGB channels are
ever written as floats; the alpha channel keeps its `uint8` value. -/
structure QPix where
  r : ℚ
  g : ℚ
  b : ℚ
  a : ℕ
deriving DecidableEq, Repr

/-- A float RGB triple (`result[y, x, :3]`). -/
structure Q3 where
  r : ℚ
  g : ℚ
  b : ℚ
deriving DecidableEq, Repr

/-- The float working array. -/
abbrev QImg := List (List QPix)

/-- Source: `img_array.copy().astype(float)` for one pixel. -/
def Pixel.toQ (p : Pixel) : QPix := ⟨p.r, p.g, p.b, p.a⟩

/-- Source: `img_array.copy().astype(float)`. -/
def Img.toQ (img : Img) : QImg := img.map (fun row => row.map Pixel.toQ)

/-- Source: `result[y, x, :3]`. -/
def QPix.rgbq (p : QPix) : Q3 := ⟨p.r, p.g, p.b⟩

/-- Squared Euclidean distance from an integer palette colour to a float
RGB triple (the square of `np.linalg.norm(palette - old_pixel, axis=1)`). -/
def dist2q (c : Color) (v : Q3) : ℚ :=
  ((c.r : ℚ) - v.r) ^ 2 + ((c.g : ℚ) - v.g) ^ 2 + ((c.b : ℚ) - v.b) ^ 2

/-- Source: `palette[np.argmin(distances)]` against a float pixel; this is the same
source function `find_closest_brand_color`/argmin pattern applied at float
dtype (the `[]` branch is unreachable: palettes are nonempty). -/
def find_closestq (palette : List Color) (v : Q3) : Color :=
  match palette with
  | [] => ⟨0, 0, 0⟩
  | p :: ps => ps.foldl (fun best q => if dist2q q v < dist2q best v then q else best) p

/-- In-place update of one entry of a list (out-of-bounds: no-op; the
dither loop only ever writes in bounds). -/
def modifyAt {α : Type} (l : List α) (i : ℕ) (f : α → α) : List α :=
  match l, i with
  | [], _ => []
  | a :: l, 0 => f a :: l
  | a :: l, i + 1 => a :: modifyAt l i f

/-- In-place update of `result[y, x]`. -/
def modifyPix (res : QImg) (y x : ℕ) (f : QPix → QPix) : QImg :=
  modifyAt res y (fun row => modifyAt row x f)

/-- Read `result[y, x]` (the loop only reads in bounds; the default is
unreachable). -/
def qpixAt (res : QImg) (y x : ℕ) : QPix :=
  ((res.get? y).bind (fun row => row.get? x)).getD ⟨0, 0, 0, 0⟩

/-- Source: `result[y, x, :3] = new_pixel`. -/
def QPix.setRGB (p : QPix) (c : Color) : QPix := ⟨c.r, c.g, c.b, p.a⟩

/-- Source: `result[y, x, :3] += error * w`. -/
def QPix.addRGB (p : QPix) (e : Q3) (w : ℚ) : QPix :=
  ⟨p.r + e.r * w, p.g + e.g * w, p.b + e.b * w, p.a⟩

/-- Source: `img_array[y, x, 3]` (the original array's alpha; in-bounds for every
coordinate the loop visits). -/
def alphaAt (img : Img) (y x : ℕ) : ℕ :=
  ((pixelAt img y x).map Pixel.a).getD 0

/-- The body of the dither loop at one coordinate `(y, x)` (lines 87-104):
quantize the (error-adjusted) pixel to the nearest palette colour and
distribute the quantization error with weights 7/16, 3/16, 5/16, 1/16 to
the in-bounds neighbours. -/
def ditherAt (palette : List Color) (width height : ℕ) (res : QImg) (y x : ℕ) : QImg :=
  let old := (qpixAt res y x).rgbq
  let newp := find_closestq palette old
  let res1 := modifyPix res y x (fun p => p.setRGB newp)
  let err : Q3 := ⟨old.r - newp.r, old.g - newp.g, old.b - newp.b⟩
  let res2 := if x + 1 < width then
      modifyPix res1 y (x + 1) (fun p => p.addRGB err (7 / 16)) else res1
  if y + 1 < height then
    let res3 := if 1 ≤ x then
        modifyPix res2 (y + 1) (x - 1) (fun p => p.addRGB err (3 / 16)) else res2
    let res4 := modifyPix res3 (y + 1) x (fun p => p.addRGB err (5 / 16))
    if x + 1 < width then
      modifyPix res4 (y + 1) (x + 1) (fun p => p.addRGB err (1 / 16)) else res4
  else res2

/-- One channel of `np.clip(result, 0, 255).astype(np.uint8)`: clamp to
`[0, 255]`, then truncate (truncation = floor on the clamped nonnegative
value). -/
def clipByte (q : ℚ) : ℕ := (⌊max 0 (min 255 q)⌋).toNat

/-- Source: `floyd_steinberg_dither(img_array, palette)` (lines 77-106).  The
source loops are `for y in range(height - 1)` and
`for x in range(1, width - 1)` — i.e. `y ∈ [0, height-2]` and
`x ∈ [1, width-2]` (`List.range' 1 (width - 2)`), skipping transparent
pixels of the original array.  The final `np.clip(...).astype(np.uint8)`
leaves the untouched `uint8` alpha channel as it was. -/
def floyd_steinberg_dither (img : Img) (palette : List Color) : Img :=
  let height := img.length
  let width := ((img.head?).map List.length).getD 0
  let res := (List.range (height - 1)).foldl (fun acc y =>
      (List.range' 1 (width - 2)).foldl (fun acc2 x =>
        if alphaAt img y x = 0 then acc2
        else ditherAt palette width height acc2 y x) acc)
    img.toQ
  res.map (fun row => row.map (fun p =>
    Pixel.mk (clipByte p.r) (clipByte p.g) (clipByte p.b) p.a))

/-- A float image channel plane (`img_array[:, :, channel].astype(float)`). -/
abbrev Plane := List (List ℚ)

/-- Extract one channel plane of the image as floats. -/
def channelPlane (f : Pixel → ℕ) (img : Img) : Plane :=
  img.map (fun row => row.map (fun p => ((f p : ℕ) : ℚ)))

/-- Assigning a float into a `uint8` array cell truncates toward zero (and
wraps mod 256); for the in-range nonnegative values the blur produces this
is floor followed by reduction mod 256. -/
def byteOfQ (q : ℚ) : ℕ := ((⌊q⌋) % 256).toNat

/-- Pointwise pairing of two 2D grids (`np.dstack`-style recombination). -/
def zipGrid {α β : Type} (a : List (List α)) (b : List (List β)) : List (List (α × β)) :=
  List.zipWith (List.zipWith Prod.mk) a b

/-- Pointwise combination of two 2D grids. -/
def zipGridWith {α β γ : Type} (f : α → β → γ) (a : List (List α)) (b : List (List β)) :
    List (List γ) :=
  List.zipWith (List.zipWith f) a b

/-- Source: `apply_gaussian_blur(img_array, sigma)` (lines 67-75), parameterized by
the external `scipy.ndimage.gaussian_filter` (a shape-preserving
float-plane transform, not part of this repository): each RGB channel is
filtered and written back into a `uint8` array, the alpha channel is copied
unchanged from the input (`blurred[:, :, 3] = img_array[:, :, 3]`). -/
def apply_gaussian_blur (gauss : ℚ → Plane → Plane) (img : Img) (sigma : ℚ) : Img :=
  let rP := gauss sigma (channelPlane Pixel.r img)
  let gP := gauss sigma (channelPlane Pixel.g img)
  let bP := gauss sigma (channelPlane Pixel.b img)
  zipGridWith (fun p t => Pixel.mk (byteOfQ t.1) (byteOfQ t.2.1) (byteOfQ t.2.2) p.a)
    img (zipGrid rP (zipGrid gP bP))

/-- Source: `edge_preserving_filter(img_array)` (lines 135-148), parameterized by
the external `cv2.bilateralFilter` (a shape-preserving RGB-grid transform,
not part of this repository): the RGB plane is filtered, then recombined
with the untouched alpha plane (`np.dstack([filtered_rgb, alpha_array])`). -/
def edge_preserving_filter (bilateral : List (List Color) → List (List Color)) (img : Img) :
    Img :=
  zipGridWith Pixel.withRGB img (bilateral (img.map (fun row => row.map Pixel.rgb)))

/-- The result of one k-means fit: float cluster centres
(`kmeans.cluster_centers_`) and one cluster index per sample
(`kmeans.predict(pixels)`). -/
structure KMeansResult where
  centers : List Q3
  labels : List ℕ
deriving Repr

/-- Source: `pixels = img_array[mask][:, :3]` where `mask = img_array[:, :, 3] > 0`:
the RGB values of the opaque pixels in row-major order. -/
def solidColors (img : Img) : List Color :=
  (img.map (fun row => (row.filter (fun p => decide (0 < p.a))).map Pixel.rgb)).flatten

/-- Source: `len(np.unique(pixels.view(...), axis=0))`: the number of distinct RGB
triples among the samples. -/
def distinctCount (cs : List Color) : ℕ := cs.dedup.length

/-- Source: `result[mask, :3] = mapped_centers[labels]`, one row: walk the row and
overwrite the RGB of each opaque pixel with the next colour of the list
(numpy assigns to the masked positions in row-major order; the list never
underflows because `len(labels) = len(pixels)`). -/
def writeRow : List Pixel → List Color → List Pixel × List Color
  | [], cs => ([], cs)
  | p :: ps, cs =>
      if 0 < p.a then
        match cs with
        | [] => let t := writeRow ps []; (p :: t.1, t.2)
        | c :: cs2 => let t := writeRow ps cs2; (p.withRGB c :: t.1, t.2)
      else
        let t := writeRow ps cs; (p :: t.1, t.2)

/-- Source: `result[mask, :3] = mapped_centers[labels]`, all rows. -/
def writeRows : List (List Pixel) → List Color → Img
  | [], _ => []
  | row :: rows, cs =>
      let t := writeRow row cs
      t.1 :: writeRows rows t.2

/-- Source: `smart_color_quantization(img_array, n_clusters)` (lines 108-133),
parameterized by the external clustering fit (sklearn's `KMeans`, not part
of this repository).  The cluster count passed to the fit is
`min(n_clusters, number of distinct sample colours)`; `none` embeds the
`ValueError` sklearn raises when that count is 0 or exceeds the sample
count (with a nonempty sample set the count is 0 only for
`n_clusters = 0`, and never exceeds the sample count). -/
def smart_color_quantization (fit : List Color → ℕ → KMeansResult) (img : Img)
    (n_clusters : ℕ) : Option Img :=
  let pixels := solidColors img
  if pixels.isEmpty then some img
  else
    let k := min n_clusters (distinctCount pixels)
    if k = 0 ∨ pixels.length < k then none
    else
      let km := fit pixels k
      let mapped := km.centers.map (fun center => find_closestq brand_palette center)
      let newColors := km.labels.map (fun l => mapped.getD l ⟨0, 0, 0⟩)
      some (writeRows img newColors)

/-- The lookup table behind Python's `int(_, 16)` digit parsing, restricted
to the hex-digit characters themselves. -/
def hexDigitVals : List (Char × ℕ) :=
  [('0', 0), ('1', 1), ('2', 2), ('3', 3), ('4', 4), ('5', 5), ('6', 6), ('7', 7),
   ('8', 8), ('9', 9),
   ('a', 10), ('b', 11), ('c', 12), ('d', 13), ('e', 14), ('f', 15),
   ('A', 10), ('B', 11), ('C', 12), ('D', 13), ('E', 14), ('F', 15)]

/-- The value of one hex digit character (`none` for a non-digit). -/
def hexVal (c : Char) : Option ℕ :=
  ((hexDigitVals.find? (fun d => d.1 == c)).map Prod.snd)

/-- Source: `int(s, 16)` on a slice: fails on the empty slice (`ValueError`) and on
any non-hex-digit character, otherwise the base-16 value. -/
def parseHex (cs : List Char) : Option ℕ :=
  if cs.isEmpty then none
  else cs.foldl (fun acc c => acc.bind (fun n => (hexVal c).map (fun v => 16 * n + v)))
    (some 0)

/-- Source: `hex_color.lstrip('#')`: drop every leading `'#'`. -/
def stripHash (s : String) : List Char := s.data.dropWhile (fun c => c == '#')

/-- Source: `hex_to_rgb(hex_color)` (lines 50-53):
`tuple(int(hex_color[i:i+2], 16) for i in (0, 2, 4))` after stripping
leading `'#'`. -/
def hex_to_rgb (s : String) : Option Color :=
  let cs := stripHash s
  (parseHex ((cs.drop 0).take 2)).bind (fun r =>
    (parseHex ((cs.drop 2).take 2)).bind (fun g =>
      (parseHex ((cs.drop 4).take 2)).map (fun b => Color.mk r g b)))

/-- A lower-case hex digit character (`'0'`-`'9'`, `'a'`-`'f'` for
`v < 16`). -/
def toHexChar (v : ℕ) : Char :=
  if v < 10 then Char.ofNat (48 + v) else Char.ofNat (87 + v)

/-- Source: `'{:02x}'.format(n)` for a channel value `n < 256`: two lower-case,
zero-padded hex digits. -/
def byteHex (n : ℕ) : List Char := [toHexChar (n / 16 % 16), toHexChar (n % 16)]

/-- Source: `rgb_to_hex(rgb_color)` (lines 55-57):
`'#{:02x}{:02x}{:02x}'.format(...)`. -/
def rgb_to_hex (c : Color) : String :=
  ⟨'#' :: (byteHex c.r ++ byteHex c.g ++ byteHex c.b)⟩

/-- Python's `str.lower()` (ASCII inputs here): lower-case every
character. -/
def strLower (s : String) : String := ⟨s.data.map Char.toLower⟩

/-- The method dispatch of `process_raster_image_advanced` (lines 168-204),
from decoded buffer to the buffer handed to the encoder: one of the five
strategy pipelines followed unconditionally by `final_brand_mapping`.  The
external float transforms (`gaussian_filter`, `bilateralFilter`) and the
clustering fit are parameters; any strategy string other than the four
named ones takes the `else` (fallback) branch. -/
def recolor (gauss : ℚ → Plane → Plane) (bilateral : List (List Color) → List (List Color))
    (fit : List Color → ℕ → KMeansResult) (img : Img) (method : String) : Option Img :=
  let processed : Option Img :=
    if method = "smart" then
      smart_color_quantization fit img 8
    else if method = "dithered" then
      some (floyd_steinberg_dither img brand_palette)
    else if method = "smooth" then
      some (simple_color_mapping
        (edge_preserving_filter bilateral (apply_gaussian_blur gauss img (3 / 5))))
    else if method = "hybrid" then
      (smart_color_quantization fit (edge_preserving_filter bilateral img) 6).map
        (fun quantized => floyd_steinberg_dither quantized core_palette)
    else
      some (simple_color_mapping img)
  processed.map final_brand_mapping

/-- Modelled from the spec: the source calls sklearn's `KMeans` (not part
of this repository) with its default `random_state`; the spec (§6, §9)
specifies "a self-contained k-means with a documented, injectable random
seed".  The seeded clustering algorithm is modelled as a function of the
seed, the samples and the cluster count, and `recolorSeeded` is `recolor`
run with the fit fixed by that seed. -/
def recolorSeeded (gauss : ℚ → Plane → Plane)
    (bilateral : List (List Color) → List (List Color))
    (fit : ℕ → List Color → ℕ → KMeansResult) (seed : ℕ) (img : Img) (method : String) :
    Option Img :=
  recolor gauss bilateral (fit seed) img method

/-- The §8 scenario buffer: a 2x2 opaque image. -/
def scenario_img : Img :=
  [[⟨255, 0, 0, 255⟩, ⟨0, 255, 0, 255⟩],
   [⟨0, 0, 255, 255⟩, ⟨10, 10, 10, 255⟩]]

/-- A 2x3 buffer whose pixel `(0, 2)` is transparent with RGB
`(50, 60, 70)`; pixel `(0, 1)` is the only one the dither loop visits. -/
def dither_img : Img :=
  [[⟨0, 0, 0, 255⟩, ⟨255, 0, 0, 255⟩, ⟨50, 60, 70, 0⟩],
   [⟨0, 0, 0, 255⟩, ⟨0, 0, 0, 255⟩, ⟨0, 0, 0, 255⟩]]

/-- A 1x1 and a 2x2 fully opaque gray buffer (gray is not a palette
member). -/
def gray11 : Img := [[⟨100, 100, 100, 255⟩]]

/-- See `gray11`. -/
def gray22 : Img :=
  [[⟨100, 100, 100, 255⟩, ⟨100, 100, 100, 255⟩],
   [⟨100, 100, 100, 255⟩, ⟨100, 100, 100, 255⟩]]

/-- A concrete shape-preserving stand-in for the external Gaussian filter,
used to instantiate witnesses. -/
def idGauss : ℚ → Plane → Plane := fun _ pl => pl

/-- A concrete shape-preserving stand-in for the external bilateral filter,
used to instantiate witnesses. -/
def idBilateral : List (List Color) → List (List Color) := fun g => g

/-- A concrete well-formed clustering fit, used to instantiate witnesses:
`k` zero centres, every sample labelled 0. -/
def constFit : List Color → ℕ → KMeansResult :=
  fun pixels k => ⟨(List.range k).map (fun _ => ⟨0, 0, 0⟩), pixels.map (fun _ => 0)⟩

/-- A concrete seeded clustering fit, used to instantiate witnesses. -/
def seededFit : ℕ → List Color → ℕ → KMeansResult := fun _ => constFit

/-- Well-formedness of a clustering fit, as sklearn guarantees it for a
valid cluster count (`1 ≤ k`): `k` centres and one label `< k` per
sample. -/
def fitWF (fit : List Color → ℕ → KMeansResult) : Prop :=
  ∀ pixels k, 0 < k → (fit pixels k).centers.length = k ∧
    (fit pixels k).labels.length = pixels.length ∧
    ∀ l ∈ (fit pixels k).labels, l < k

/-- The alpha plane of a buffer. -/
def alphaGrid (img : Img) : List (List ℕ) := img.map (fun row => row.map Pixel.a)

/-- The shape (row lengths) of a 2D grid. -/
def shape2 {α : Type} (g : List (List α)) : List ℕ := g.map List.length

/-- The alpha plane of the dither stage's float working array. -/
def alphaGridQ (res : QImg) : List (List ℕ) := res.map (fun row => row.map QPix.a)

/-- The §8 all-transparent 4x4 buffer. -/
def clear44 : Img :=
  List.replicate 4 (List.replicate 4 ⟨0, 0, 0, 0⟩)

/-- A 6-hex-digit string, optionally prefixed with `'#'` characters: after
stripping the prefix, exactly 6 characters remain, each a hex digit. -/
def isHex6 (s : String) : Prop :=
  (stripHash s).length = 6 ∧ ∀ c ∈ stripHash s, (hexVal c).isSome = true

/-! ## Helper lemmas -/

/- Batteries marks the `ℚ` field operations `@[irreducible]`; concrete
evaluation proofs (`decide`) of the dithering stage need them to reduce,
which is a pure reducibility-attribute change (the kernel-checked terms
are unaffected). -/
set_option allowUnsafeReducibility true

attribute [local semireducible] Rat.add Rat.mul Rat.sub Rat.inv Rat.div

set_option maxRecDepth 4000

theorem dist2_self (c : Color) : dist2 c c = 0 := by
  simp [dist2]

theorem Pixel.withRGB_a (p : Pixel) (c : Color) : (p.withRGB c).a = p.a := rfl

theorem Pixel.withRGB_rgb (p : Pixel) (c : Color) : (p.withRGB c).rgb = c := rfl

theorem closest_foldl_mem (c : Color) :
    ∀ (ps : List Color) (p : Color),
      ps.foldl (fun best q => if dist2 q c < dist2 best c then q else best) p ∈ p :: ps := by
  intro ps
  induction ps with
  | nil => intro p; exact List.mem_cons_self p []
  | cons q ps ih =>
      intro p
      simp only [List.foldl_cons]
      by_cases h : dist2 q c < dist2 p c
      · rw [if_pos h]
        exact List.mem_cons_of_mem p (ih q)
      · rw [if_neg h]
        rcases List.mem_cons.mp (ih p) with h1 | h1
        · rw [h1]
          exact List.mem_cons_self p _
        · exact List.mem_cons_of_mem _ (List.mem_cons_of_mem _ h1)

theorem find_closest_mem (palette : List Color) (c : Color) (h : palette ≠ []) :
    find_closest palette c ∈ palette := by
  cases palette with
  | nil => exact absurd rfl h
  | cons p ps => exact closest_foldl_mem c ps p

theorem minfold_le_init (c : Color) :
    ∀ (ps : List Color) (a : ℤ), ps.foldl (fun m q => min m (dist2 q c)) a ≤ a := by
  intro ps
  induction ps with
  | nil => intro a; exact le_refl a
  | cons q ps ih =>
      intro a
      simp only [List.foldl_cons]
      exact le_trans (ih (min a (dist2 q c))) (min_le_left _ _)

theorem minfold_le_mem (c : Color) :
    ∀ (ps : List Color) (a : ℤ) (q : Color), q ∈ ps →
      ps.foldl (fun m q2 => min m (dist2 q2 c)) a ≤ dist2 q c := by
  intro ps
  induction ps with
  | nil => intro a q h; exact absurd h (List.not_mem_nil q)
  | cons r ps ih =>
      intro a q h
      simp only [List.foldl_cons]
      rcases List.mem_cons.mp h with h1 | h1
      · rw [h1]
        exact le_trans (minfold_le_init c ps _) (min_le_right _ _)
      · exact ih _ q h1

theorem min_dist2_le_of_mem (palette : List Color) (c c2 : Color) (h : c ∈ palette) :
    min_dist2 palette c2 ≤ dist2 c c2 := by
  cases palette with
  | nil => exact absurd h (List.not_mem_nil c)
  | cons p ps =>
      rcases List.mem_cons.mp h with h1 | h1
      · rw [h1]
        exact minfold_le_init c2 ps _
      · exact minfold_le_mem c2 ps _ c h1

theorem canonPixel_a (p : Pixel) : (canonPixel p).a = p.a := by
  unfold canonPixel
  split <;> rfl

theorem core_mem_not_blend : ∀ c ∈ core_palette, c ∉ blend_colors := by decide

theorem blend_far_from_core : ∀ c ∈ blend_colors, 25 < min_dist2 core_palette c := by decide

theorem closest_core_mem (c : Color) : find_closest_brand_color c false ∈ core_palette := by
  have h : find_closest core_palette c ∈ core_palette :=
    find_closest_mem core_palette c (by simp [core_palette])
  simpa [find_closest_brand_color] using h

theorem canonPixel_idem (p : Pixel) : canonPixel (canonPixel p) = canonPixel p := by
  by_cases h : 0 < p.a ∧ 25 < min_dist2 core_palette p.rgb
  · have h1 : canonPixel p = p.withRGB (find_closest_brand_color p.rgb false) := by
      unfold canonPixel
      rw [if_pos h]
    rw [h1]
    unfold canonPixel
    rw [if_neg]
    intro hc
    have hmem := closest_core_mem p.rgb
    have hle : min_dist2 core_palette ((p.withRGB (find_closest_brand_color p.rgb false)).rgb)
        ≤ 0 := by
      rw [Pixel.withRGB_rgb]
      have h2 := min_dist2_le_of_mem core_palette (find_closest_brand_color p.rgb false)
        (find_closest_brand_color p.rgb false) hmem
      simpa [dist2_self] using h2
    have := hc.2
    omega
  · have h1 : canonPixel p = p := by
      unfold canonPixel
      rw [if_neg h]
    rw [h1, h1]

theorem pixelAt_map (g : Pixel → Pixel) (img : Img) (y x : ℕ) :
    pixelAt (img.map (fun row => row.map g)) y x = (pixelAt img y x).map g := by
  unfold pixelAt
  rw [List.get?_map]
  cases h : img.get? y with
  | none => rfl
  | some row => simp [List.get?_map]

/-! ## Claim theorems: canonicalization (C1, C6, C7) -/

/-- Claim C1: `final_brand_mapping` (the canonicalization pass) inspects
every opaque pixel's distance to the nearest core colour; when the
(squared) distance exceeds the tolerance (5 units, squared 25) the pixel's
RGB becomes that nearest core colour, otherwise the pixel is unchanged;
consequently no opaque output pixel ever carries an intermediate/blend
colour, whatever produced the input buffer. -/
theorem canonicalization_pixelwise_no_blend (img : Img) (y x : ℕ) (q : Pixel)
    (h : pixelAt img y x = some q) :
    pixelAt (final_brand_mapping img) y x =
      some (if 0 < q.a ∧ 25 < min_dist2 core_palette q.rgb
            then q.withRGB (find_closest core_palette q.rgb) else q) ∧
    ∀ p : Pixel, pixelAt (final_brand_mapping img) y x = some p → 0 < p.a →
      p.rgb ∉ blend_colors := by
  have hmap : pixelAt (final_brand_mapping img) y x = some (canonPixel q) := by
    unfold final_brand_mapping
    rw [pixelAt_map, h]
    rfl
  constructor
  · rw [hmap]
    simp [canonPixel, find_closest_brand_color]
  · intro p hp hpa
    rw [hmap] at hp
    have hpq : p = canonPixel q := (Option.some.inj hp).symm
    by_cases hcond : 0 < q.a ∧ 25 < min_dist2 core_palette q.rgb
    · have h1 : canonPixel q = q.withRGB (find_closest_brand_color q.rgb false) := by
        unfold canonPixel
        rw [if_pos hcond]
      rw [hpq, h1, Pixel.withRGB_rgb]
      exact core_mem_not_blend _ (closest_core_mem q.rgb)
    · have h1 : canonPixel q = q := by
        unfold canonPixel
        rw [if_neg hcond]
      rw [hpq, h1]
      intro hblend
      have hfar := blend_far_from_core q.rgb hblend
      have hqa : 0 < q.a := by
        rw [hpq, h1] at hpa
        exact hpa
      exact hcond ⟨hqa, hfar⟩

/-- Witness for `canonicalization_pixelwise_no_blend` at the §8 scenario
buffer, pixel `(0, 0) = (255, 0, 0, 255)`. -/
theorem canonicalization_pixelwise_no_blend_witness :
    pixelAt scenario_img 0 0 = some ⟨255, 0, 0, 255⟩ ∧
    (pixelAt (final_brand_mapping scenario_img) 0 0 =
        some (if 0 < (Pixel.mk 255 0 0 255).a ∧
                  25 < min_dist2 core_palette (Pixel.mk 255 0 0 255).rgb
              then (Pixel.mk 255 0 0 255).withRGB
                     (find_closest core_palette (Pixel.mk 255 0 0 255).rgb)
              else Pixel.mk 255 0 0 255) ∧
      ∀ p : Pixel, pixelAt (final_brand_mapping scenario_img) 0 0 = some p → 0 < p.a →
        p.rgb ∉ blend_colors) :=
  ⟨by decide, canonicalization_pixelwise_no_blend scenario_img 0 0 ⟨255, 0, 0, 255⟩ (by decide)⟩

/-- Claim C6: the canonicalization pass is idempotent. -/
theorem canonicalization_idempotent (img : Img) :
    final_brand_mapping (final_brand_mapping img) = final_brand_mapping img := by
  unfold final_brand_mapping
  rw [List.map_map]
  congr 1
  funext row
  simp [Function.comp_def, List.map_map, canonPixel_idem]

/-- Claim C7 counterexample: the §8 scenario buffer run through the
fallback pipeline (`simple_color_mapping` then `final_brand_mapping`,
lines 199-204) does NOT equal the buffer with every pixel replaced by its
nearest core colour: pixel `(0,0) = (255,0,0)` is nearest to accent among
the core colours, but the pipeline routes it through the blend
`(131,105,36)` and canonicalizes that to primary. -/
theorem scenario_fallback_not_nearest_core :
    final_brand_mapping (simple_color_mapping scenario_img) ≠
      scenario_img.map (fun row => row.map (fun p =>
        p.withRGB (find_closest core_palette p.rgb))) := by
  decide

/-- Claim C7 (amended): under the fallback strategy each opaque pixel goes
to its nearest EXTENDED-palette colour, and canonicalization then sends
any blend further than tolerance from the core palette to its nearest
CORE colour; on the §8 scenario buffer this yields primary `(7,27,44)` at
all four pixels (for `(255,0,0)` that differs from its directly-nearest
core colour, accent), and a second canonicalization pass is a no-op. -/
theorem scenario_fallback_eval :
    simple_color_mapping scenario_img =
      [[⟨131, 105, 36, 255⟩, ⟨131, 105, 36, 255⟩],
       [⟨7, 27, 44, 255⟩, ⟨7, 27, 44, 255⟩]] ∧
    final_brand_mapping (simple_color_mapping scenario_img) =
      [[⟨7, 27, 44, 255⟩, ⟨7, 27, 44, 255⟩],
       [⟨7, 27, 44, 255⟩, ⟨7, 27, 44, 255⟩]] ∧
    find_closest core_palette ⟨255, 0, 0⟩ = accent_color ∧
    final_brand_mapping (final_brand_mapping (simple_color_mapping scenario_img)) =
      final_brand_mapping (simple_color_mapping scenario_img) := by
  decide

/-! ## Claim theorems: dithering boundary behaviour (C3) -/

/-- Claim C3 (code-bug evaluation): the dither loops
`for y in range(height - 1)` / `for x in range(1, width - 1)` never visit
the last row or columns `0`/`width-1`, so on a 1x1 and a 2x2 fully opaque
gray buffer NO pixel is quantized: the buffer comes back unchanged with
its non-palette colour `(100,100,100)` intact, although the dead in-bounds
guards inside the loop body (lines 97-104) and the spec's §4.5/§8 call for
every opaque pixel, boundaries included, to be quantized to a
palette-member colour. -/
theorem dither_boundary_pixels_never_quantized :
    floyd_steinberg_dither gray11 brand_palette = gray11 ∧
    floyd_steinberg_dither gray22 brand_palette = gray22 ∧
    (Color.mk 100 100 100) ∉ brand_palette ∧
    (∀ p ∈ gray22.flatten, 0 < p.a ∧ p.rgb = ⟨100, 100, 100⟩) := by
  decide

/-! ## Claim theorems: transparency (C2, C9) -/

/-- Claim C2 counterexample: under the `dithered` strategy the error
diffusion writes into the RGB channels of a transparent neighbour: pixel
`(0, 2)` of `dither_img` has alpha 0 and RGB `(50, 60, 70)` on input, but
RGB `(104, 14, 54)` on output (the 7/16 share of the error at `(0, 1)`),
so a transparent pixel is not returned bit-identically. -/
theorem dithered_rewrites_transparent_rgb :
    pixelAt dither_img 0 2 = some ⟨50, 60, 70, 0⟩ ∧
    (recolor idGauss idBilateral constFit dither_img "dithered").bind
        (fun out => pixelAt out 0 2) = some ⟨104, 14, 54, 0⟩ ∧
    (Pixel.mk 104 14 54 0) ≠ ⟨50, 60, 70, 0⟩ := by
  decide

/-! ## Claim theorems: hex round trip (C5) -/

/-- Claim C5 counterexample: for the unprefixed 6-hex-digit string
`"071b2c"`, `rgb_to_hex (hex_to_rgb s)` is `"#071b2c"`, which is not
`s.lower() = "071b2c"` — the round trip always reattaches a `'#'`. -/
theorem hex_round_trip_unprefixed_fails :
    (hex_to_rgb "071b2c").map rgb_to_hex = some "#071b2c" ∧
    strLower "071b2c" = "071b2c" ∧
    (hex_to_rgb "071b2c").map rgb_to_hex ≠ some (strLower "071b2c") := by
  decide

theorem hexDigit_table_spec :
    ∀ d ∈ hexDigitVals, d.2 < 16 ∧ toHexChar d.2 = d.1.toLower := by
  decide

theorem hexVal_spec (c : Char) (v : ℕ) (h : hexVal c = some v) :
    v < 16 ∧ toHexChar v = c.toLower := by
  unfold hexVal at h
  cases hfind : hexDigitVals.find? (fun d => d.1 == c) with
  | none =>
      rw [hfind] at h
      simp at h
  | some d =>
      rw [hfind] at h
      simp at h
      have hmem := List.mem_of_find?_eq_some hfind
      have hbeq := List.find?_some hfind
      have hc : d.1 = c := by simpa using hbeq
      subst hc
      subst h
      exact hexDigit_table_spec d hmem

theorem list_length_six {α : Type} (l : List α) (h : l.length = 6) :
    ∃ a b c d e f, l = [a, b, c, d, e, f] := by
  cases l with
  | nil => simp at h
  | cons a l =>
  cases l with
  | nil => simp at h
  | cons b l =>
  cases l with
  | nil => simp at h
  | cons c l =>
  cases l with
  | nil => simp at h
  | cons d l =>
  cases l with
  | nil => simp at h
  | cons e l =>
  cases l with
  | nil => simp at h
  | cons f l =>
  cases l with
  | nil => exact ⟨a, b, c, d, e, f, rfl⟩
  | cons g l => simp at h

/-- Claim C5 (amended): for every 6-hex-digit string `s` (with any number
of optional leading `'#'` characters), the round trip yields `'#'`
followed by the lower-cased six digits — which equals `s.lower()` exactly
when `s` itself carries a single `'#'` prefix; for unprefixed `s` the
round trip result is `'#' ++ s.lower()`, not `s.lower()`. -/
theorem hex_round_trip_amended (s : String) (h : isHex6 s) :
    (hex_to_rgb s).map rgb_to_hex =
      some ⟨'#' :: (stripHash s).map Char.toLower⟩ ∧
    (s.data = '#' :: stripHash s →
      (hex_to_rgb s).map rgb_to_hex = some (strLower s)) := by
  obtain ⟨hlen, hdig⟩ := h
  obtain ⟨c1, c2, c3, c4, c5, c6, hcs⟩ := list_length_six (stripHash s) hlen
  obtain ⟨v1, hv1⟩ := Option.isSome_iff_exists.mp (hdig c1 (by rw [hcs]; simp))
  obtain ⟨v2, hv2⟩ := Option.isSome_iff_exists.mp (hdig c2 (by rw [hcs]; simp))
  obtain ⟨v3, hv3⟩ := Option.isSome_iff_exists.mp (hdig c3 (by rw [hcs]; simp))
  obtain ⟨v4, hv4⟩ := Option.isSome_iff_exists.mp (hdig c4 (by rw [hcs]; simp))
  obtain ⟨v5, hv5⟩ := Option.isSome_iff_exists.mp (hdig c5 (by rw [hcs]; simp))
  obtain ⟨v6, hv6⟩ := Option.isSome_iff_exists.mp (hdig c6 (by rw [hcs]; simp))
  obtain ⟨hlt1, hch1⟩ := hexVal_spec c1 v1 hv1
  obtain ⟨hlt2, hch2⟩ := hexVal_spec c2 v2 hv2
  obtain ⟨hlt3, hch3⟩ := hexVal_spec c3 v3 hv3
  obtain ⟨hlt4, hch4⟩ := hexVal_spec c4 v4 hv4
  obtain ⟨hlt5, hch5⟩ := hexVal_spec c5 v5 hv5
  obtain ⟨hlt6, hch6⟩ := hexVal_spec c6 v6 hv6
  have hr : hex_to_rgb s = some ⟨16 * v1 + v2, 16 * v3 + v4, 16 * v5 + v6⟩ := by
    unfold hex_to_rgb parseHex
    rw [hcs]
    simp [hv1, hv2, hv3, hv4, hv5, hv6]
  have e1 : (16 * v1 + v2) / 16 % 16 = v1 := by omega
  have e2 : (16 * v1 + v2) % 16 = v2 := by omega
  have e3 : (16 * v3 + v4) / 16 % 16 = v3 := by omega
  have e4 : (16 * v3 + v4) % 16 = v4 := by omega
  have e5 : (16 * v5 + v6) / 16 % 16 = v5 := by omega
  have e6 : (16 * v5 + v6) % 16 = v6 := by omega
  have hmain : (hex_to_rgb s).map rgb_to_hex =
      some ⟨'#' :: (stripHash s).map Char.toLower⟩ := by
    rw [hr, hcs]
    simp [rgb_to_hex, byteHex, e1, e2, e3, e4, e5, e6, hch1, hch2, hch3, hch4, hch5, hch6]
  refine ⟨hmain, fun hp => ?_⟩
  rw [hmain]
  have hlow : strLower s = ⟨'#' :: (stripHash s).map Char.toLower⟩ := by
    unfold strLower
    rw [hp]
    simp
  rw [hlow]

/-- Witness for `hex_round_trip_amended` at the primary colour's prefixed
upper-case hex string `"#071B2C"`. -/
theorem hex_round_trip_amended_witness :
    isHex6 "#071B2C" ∧
    ((hex_to_rgb "#071B2C").map rgb_to_hex =
        some ⟨'#' :: (stripHash "#071B2C").map Char.toLower⟩ ∧
      (String.data "#071B2C" = '#' :: stripHash "#071B2C" →
        (hex_to_rgb "#071B2C").map rgb_to_hex = some (strLower "#071B2C"))) :=
  ⟨by unfold isHex6; decide, hex_round_trip_amended "#071B2C" (by unfold isHex6; decide)⟩

/-! ## Claim theorems: clustering quantizer (C4, C9) -/

theorem writeRow_spec (row : List Pixel) : ∀ cs : List Color,
    (row.filter (fun p => decide (0 < p.a))).length ≤ cs.length →
    ((writeRow row cs).1.filter (fun p => decide (0 < p.a))).map Pixel.rgb
        = cs.take (row.filter (fun p => decide (0 < p.a))).length ∧
    (writeRow row cs).2 = cs.drop (row.filter (fun p => decide (0 < p.a))).length := by
  induction row with
  | nil => intro cs _; simp [writeRow]
  | cons p ps ih =>
      intro cs hlen
      by_cases hp : 0 < p.a
      · have hfil : (p :: ps).filter (fun p => decide (0 < p.a)) =
            p :: ps.filter (fun p => decide (0 < p.a)) := by
          simp [List.filter_cons, hp]
        rw [hfil] at hlen ⊢
        cases cs with
        | nil => simp at hlen
        | cons c cs2 =>
            have hlen2 : (ps.filter (fun p => decide (0 < p.a))).length ≤ cs2.length := by
              simpa using hlen
            obtain ⟨ih1, ih2⟩ := ih cs2 hlen2
            have hw : writeRow (p :: ps) (c :: cs2) =
                ((p.withRGB c) :: (writeRow ps cs2).1, (writeRow ps cs2).2) := by
              simp [writeRow, hp]
            rw [hw]
            constructor
            · have ha : (0 < (p.withRGB c).a) := by
                rw [Pixel.withRGB_a]; exact hp
              simp [List.filter_cons, ha, Pixel.withRGB_rgb, ih1]
            · simpa using ih2
      · have hfil : (p :: ps).filter (fun p => decide (0 < p.a)) =
            ps.filter (fun p => decide (0 < p.a)) := by
          simp [List.filter_cons, hp]
        rw [hfil] at hlen ⊢
        obtain ⟨ih1, ih2⟩ := ih cs hlen
        have hw : writeRow (p :: ps) cs = (p :: (writeRow ps cs).1, (writeRow ps cs).2) := by
          simp [writeRow, hp]
        rw [hw]
        constructor
        · simp [List.filter_cons, hp, ih1]
        · exact ih2

theorem writeRows_spec (rows : List (List Pixel)) : ∀ cs : List Color,
    (solidColors rows).length ≤ cs.length →
    solidColors (writeRows rows cs) = cs.take (solidColors rows).length := by
  induction rows with
  | nil => intro cs _; simp [writeRows, solidColors]
  | cons row rows ih =>
      intro cs hlen
      have hsc : solidColors (row :: rows) =
          (row.filter (fun p => decide (0 < p.a))).map Pixel.rgb ++ solidColors rows := by
        simp [solidColors]
      rw [hsc] at hlen ⊢
      have hlen1 : (row.filter (fun p => decide (0 < p.a))).length ≤ cs.length := by
        simp at hlen
        omega
      obtain ⟨hr1, hr2⟩ := writeRow_spec row cs (by simpa using hlen1)
      have hw : writeRows (row :: rows) cs =
          (writeRow row cs).1 :: writeRows rows (writeRow row cs).2 := by
        simp [writeRows]
      rw [hw]
      have hsc2 : solidColors ((writeRow row cs).1 :: writeRows rows (writeRow row cs).2) =
          ((writeRow row cs).1.filter (fun p => decide (0 < p.a))).map Pixel.rgb ++
            solidColors (writeRows rows (writeRow row cs).2) := by
        simp [solidColors]
      rw [hsc2, hr1, hr2]
      have hlen2 : (solidColors rows).length ≤
          (cs.drop (row.filter (fun p => decide (0 < p.a))).length).length := by
        simp at hlen ⊢
        omega
      rw [ih _ hlen2]
      rw [← List.take_add]
      congr 1
      simp

theorem solidColors_writeRows (rows : List (List Pixel)) (cs : List Color)
    (h : cs.length = (solidColors rows).length) :
    solidColors (writeRows rows cs) = cs := by
  have h2 := writeRows_spec rows cs (le_of_eq h.symm)
  rw [h2, ← h, List.take_length]

/-- Claim C4: with a nonempty opaque sample and any requested cluster
count `k ≥ 1`, `smart_color_quantization` clamps the cluster count to
`min k (number of distinct sample colours)`, never fails (in particular
for `k` larger than the number of distinct colours), and its output has at
most `min k (number of distinct sample colours)` distinct opaque colours
(before canonicalization) — for any clustering fit obeying sklearn's
output contract. -/
theorem quantize_clamps_cluster_count (fit : List Color → ℕ → KMeansResult) (img : Img)
    (k : ℕ) (hfit : fitWF fit) (hk : 0 < k) (hsolid : solidColors img ≠ []) :
    ∃ out, smart_color_quantization fit img k = some out ∧
      distinctCount (solidColors out) ≤ min k (distinctCount (solidColors img)) := by
  have hdpos : 0 < distinctCount (solidColors img) := by
    unfold distinctCount
    exact List.length_pos.mpr (fun hd => hsolid ((List.dedup_eq_nil _).mp hd))
  have hkpos : 0 < min k (distinctCount (solidColors img)) := lt_min hk hdpos
  have hkle : min k (distinctCount (solidColors img)) ≤ (solidColors img).length := by
    have h1 : distinctCount (solidColors img) ≤ (solidColors img).length :=
      List.Sublist.length_le (List.dedup_sublist (solidColors img))
    omega
  obtain ⟨hc, hl, hlt⟩ := hfit (solidColors img) (min k (distinctCount (solidColors img))) hkpos
  have hout : smart_color_quantization fit img k = some (writeRows img
      ((fit (solidColors img) (min k (distinctCount (solidColors img)))).labels.map
        (fun l => ((fit (solidColors img)
            (min k (distinctCount (solidColors img)))).centers.map
          (fun center => find_closestq brand_palette center)).getD l ⟨0, 0, 0⟩))) := by
    unfold smart_color_quantization
    rw [if_neg, if_neg]
    · omega
    · simp [List.isEmpty_iff, hsolid]
  refine ⟨_, hout, ?_⟩
  set mapped := (fit (solidColors img) (min k (distinctCount (solidColors img)))).centers.map
      (fun center => find_closestq brand_palette center) with hmapped
  set labels := (fit (solidColors img) (min k (distinctCount (solidColors img)))).labels
      with hlabels
  set newColors := labels.map (fun l => mapped.getD l ⟨0, 0, 0⟩) with hnew
  have hnclen : newColors.length = (solidColors img).length := by
    rw [hnew, List.length_map]
    exact hl
  have hsc : solidColors (writeRows img newColors) = newColors :=
    solidColors_writeRows img newColors hnclen
  rw [hsc]
  have hmlen : mapped.length = min k (distinctCount (solidColors img)) := by
    rw [hmapped, List.length_map]
    exact hc
  have hsub : ∀ c ∈ newColors, c ∈ mapped := by
    intro c hcmem
    rw [hnew] at hcmem
    obtain ⟨l, hlmem, hrfl⟩ := List.mem_map.mp hcmem
    have hllt : l < mapped.length := by
      rw [hmlen]
      exact hlt l hlmem
    rw [← hrfl, List.getD_eq_getElem mapped ⟨0, 0, 0⟩ hllt]
    exact List.getElem_mem hllt
  have hfin : newColors.toFinset ⊆ mapped.toFinset := by
    intro c hc2
    exact List.mem_toFinset.mpr (hsub c (List.mem_toFinset.mp hc2))
  have hcard : newColors.toFinset.card ≤ mapped.toFinset.card := Finset.card_le_card hfin
  unfold distinctCount
  rw [← List.card_toFinset]
  calc newColors.toFinset.card ≤ mapped.toFinset.card := hcard
    _ ≤ mapped.length := List.toFinset_card_le mapped
    _ = min k (distinctCount (solidColors img)) := hmlen

/-- Witness for `quantize_clamps_cluster_count`: the §8 scenario buffer
has 4 distinct opaque colours; requesting `k = 8 > 4` clusters succeeds. -/
theorem quantize_clamps_cluster_count_witness :
    fitWF constFit ∧ 0 < 8 ∧ solidColors scenario_img ≠ [] ∧
    distinctCount (solidColors scenario_img) = 4 ∧
    ∃ out, smart_color_quantization constFit scenario_img 8 = some out ∧
      distinctCount (solidColors out) ≤ min 8 (distinctCount (solidColors scenario_img)) := by
  have hfit : fitWF constFit := by
    intro pixels k hk
    refine ⟨by simp [constFit], by simp [constFit], ?_⟩
    intro l hl
    simp [constFit] at hl
    omega
  exact ⟨hfit, by decide, by decide, by decide,
    quantize_clamps_cluster_count constFit scenario_img 8 hfit (by decide) (by decide)⟩

theorem solidColors_eq_nil : ∀ (img : Img),
    (∀ row ∈ img, ∀ p ∈ row, p.a = 0) → solidColors img = [] := by
  intro img
  induction img with
  | nil => intro _; rfl
  | cons row rows ih =>
      intro h
      have h1 : row.filter (fun p => decide (0 < p.a)) = [] := by
        rw [List.filter_eq_nil]
        intro p hp
        simp [h row (List.mem_cons_self row rows) p hp]
      have h2 : solidColors (row :: rows) =
          (row.filter (fun p => decide (0 < p.a))).map Pixel.rgb ++ solidColors rows := by
        simp [solidColors]
      rw [h2, h1]
      simp only [List.map_nil, List.nil_append]
      exact ih (fun r hr => h r (List.mem_cons_of_mem row hr))

/-- Claim C9: if every pixel of the buffer is transparent (the opaque
sample set is empty), `smart_color_quantization` returns the buffer
unchanged, for every requested cluster count. -/
theorem quantize_all_transparent_identity (fit : List Color → ℕ → KMeansResult) (img : Img)
    (k : ℕ) (h : ∀ row ∈ img, ∀ p ∈ row, p.a = 0) :
    smart_color_quantization fit img k = some img := by
  have hsc : solidColors img = [] := solidColors_eq_nil img h
  unfold smart_color_quantization
  rw [if_pos]
  rw [hsc]
  rfl

/-- Witness for `quantize_all_transparent_identity` on the §8
all-transparent 4x4 buffer. -/
theorem quantize_all_transparent_identity_witness :
    smart_color_quantization constFit clear44 8 = some clear44 :=
  quantize_all_transparent_identity constFit clear44 8 (by decide)

/-! ## Claim theorems: dispatcher (C10) and determinism (C8) -/

/-- Claim C10: any strategy string other than `"smart"`, `"dithered"`,
`"smooth"`, `"hybrid"` — misspellings and arbitrary strings included —
silently takes the `else` branch of the dispatcher: the naive
nearest-colour fallback followed by canonicalization; no strategy value is
rejected. -/
theorem unknown_strategy_falls_back (gauss : ℚ → Plane → Plane)
    (bilateral : List (List Color) → List (List Color))
    (fit : List Color → ℕ → KMeansResult) (img : Img) (m : String)
    (h1 : m ≠ "smart") (h2 : m ≠ "dithered") (h3 : m ≠ "smooth") (h4 : m ≠ "hybrid") :
    recolor gauss bilateral fit img m =
      some (final_brand_mapping (simple_color_mapping img)) := by
  simp [recolor, h1, h2, h3, h4]

/-- Witness for `unknown_strategy_falls_back` at the misspelt strategy
string `"fallbck"`. -/
theorem unknown_strategy_falls_back_witness :
    ("fallbck" ≠ "smart" ∧ "fallbck" ≠ "dithered" ∧ "fallbck" ≠ "smooth" ∧
      "fallbck" ≠ "hybrid") ∧
    recolor idGauss idBilateral constFit scenario_img "fallbck" =
      some (final_brand_mapping (simple_color_mapping scenario_img)) :=
  ⟨by decide, unknown_strategy_falls_back idGauss idBilateral constFit scenario_img "fallbck"
    (by decide) (by decide) (by decide) (by decide)⟩

/-- Claim C8: `recolorSeeded` — the pipeline with the spec-modelled seeded
clustering algorithm — is a pure function of buffer, strategy and seed:
two invocations with the same arguments that produce buffers produce the
same buffer. -/
theorem recolor_deterministic (gauss : ℚ → Plane → Plane)
    (bilateral : List (List Color) → List (List Color))
    (fit : ℕ → List Color → ℕ → KMeansResult) (seed : ℕ) (img : Img) (m : String)
    (out1 out2 : Img)
    (h1 : recolorSeeded gauss bilateral fit seed img m = some out1)
    (h2 : recolorSeeded gauss bilateral fit seed img m = some out2) :
    out1 = out2 := by
  rw [h1] at h2
  exact Option.some.inj h2

/-- Witness for `recolor_deterministic`: the `smart` strategy on the §8
scenario buffer with seed 0. -/
theorem recolor_deterministic_witness :
    recolorSeeded idGauss idBilateral seededFit 0 scenario_img "smart" =
      some [[⟨7, 27, 44, 255⟩, ⟨7, 27, 44, 255⟩], [⟨7, 27, 44, 255⟩, ⟨7, 27, 44, 255⟩]] ∧
    ([[⟨7, 27, 44, 255⟩, ⟨7, 27, 44, 255⟩], [⟨7, 27, 44, 255⟩, ⟨7, 27, 44, 255⟩]] : Img) =
      [[⟨7, 27, 44, 255⟩, ⟨7, 27, 44, 255⟩], [⟨7, 27, 44, 255⟩, ⟨7, 27, 44, 255⟩]] := by
  have h : recolorSeeded idGauss idBilateral seededFit 0 scenario_img "smart" =
      some [[⟨7, 27, 44, 255⟩, ⟨7, 27, 44, 255⟩], [⟨7, 27, 44, 255⟩, ⟨7, 27, 44, 255⟩]] := by
    decide
  exact ⟨h, recolor_deterministic idGauss idBilateral seededFit 0 scenario_img "smart" _ _ h h⟩

/-! ## Claim theorems: transparency across strategies (C2, amended) -/

theorem modifyAt_map {α β : Type} (g : α → β) (f : α → α) (hf : ∀ x, g (f x) = g x) :
    ∀ (l : List α) (i : ℕ), (modifyAt l i f).map g = l.map g := by
  intro l
  induction l with
  | nil => intro i; rfl
  | cons a l ih =>
      intro i
      cases i with
      | zero => simp [modifyAt, hf]
      | succ i => simp [modifyAt, ih]

theorem modifyPix_map_a (res : QImg) (y x : ℕ) (f : QPix → QPix)
    (hf : ∀ p, (f p).a = p.a) :
    alphaGridQ (modifyPix res y x f) = alphaGridQ res := by
  unfold alphaGridQ modifyPix
  exact modifyAt_map (fun row => row.map QPix.a) (fun row => modifyAt row x f)
    (fun row => modifyAt_map QPix.a f hf row x) res y

theorem modifyPix_setRGB_a (res : QImg) (y x : ℕ) (c : Color) :
    alphaGridQ (modifyPix res y x (fun p => p.setRGB c)) = alphaGridQ res :=
  modifyPix_map_a res y x _ (fun _ => rfl)

theorem modifyPix_addRGB_a (res : QImg) (y x : ℕ) (e : Q3) (w : ℚ) :
    alphaGridQ (modifyPix res y x (fun p => p.addRGB e w)) = alphaGridQ res :=
  modifyPix_map_a res y x _ (fun _ => rfl)

theorem ditherAt_alphaGridQ (palette : List Color) (w h : ℕ) (res : QImg) (y x : ℕ) :
    alphaGridQ (ditherAt palette w h res y x) = alphaGridQ res := by
  unfold ditherAt
  split_ifs <;>
    simp only [modifyPix_setRGB_a, modifyPix_addRGB_a]

theorem foldl_fix {α β γ : Type} (g : β → γ) (f : β → α → β)
    (hstep : ∀ b a, g (f b a) = g b) : ∀ (l : List α) (b : β), g (l.foldl f b) = g b := by
  intro l
  induction l with
  | nil => intro b; rfl
  | cons a l ih =>
      intro b
      rw [List.foldl_cons, ih, hstep]

theorem dither_alphaGrid (img : Img) (palette : List Color) :
    alphaGrid (floyd_steinberg_dither img palette) = alphaGrid img := by
  unfold floyd_steinberg_dither
  have hres : ∀ res0 : QImg, alphaGridQ ((List.range (img.length - 1)).foldl
      (fun acc y => (List.range' 1 (((img.head?).map List.length).getD 0 - 2)).foldl
        (fun acc2 x => if alphaAt img y x = 0 then acc2
          else ditherAt palette (((img.head?).map List.length).getD 0) img.length acc2 y x)
        acc) res0) = alphaGridQ res0 := by
    intro res0
    refine foldl_fix _ _ (fun b y => ?_) _ res0
    refine foldl_fix _ _ (fun b2 x => ?_) _ b
    by_cases hz : alphaAt img y x = 0
    · rw [if_pos hz]
    · rw [if_neg hz, ditherAt_alphaGridQ]
  have hconv : ∀ res : QImg, alphaGrid (res.map (fun row => row.map (fun p =>
      Pixel.mk (clipByte p.r) (clipByte p.g) (clipByte p.b) p.a))) = alphaGridQ res := by
    intro res
    simp [alphaGrid, alphaGridQ, List.map_map, Function.comp_def]
  have htoq : alphaGridQ img.toQ = alphaGrid img := by
    simp [alphaGrid, alphaGridQ, Img.toQ, List.map_map, Function.comp_def, Pixel.toQ]
  rw [hconv, hres, htoq]

theorem pixmap_alphaGrid (g : Pixel → Pixel) (hg : ∀ p, (g p).a = p.a) (img : Img) :
    alphaGrid (img.map (fun row => row.map g)) = alphaGrid img := by
  simp [alphaGrid, List.map_map, Function.comp_def, hg]

theorem simplePixel_a (p : Pixel) : (simplePixel p).a = p.a := by
  unfold simplePixel
  split <;> rfl

theorem writeRow_map_a (row : List Pixel) : ∀ cs : List Color,
    (writeRow row cs).1.map Pixel.a = row.map Pixel.a := by
  induction row with
  | nil => intro cs; simp [writeRow]
  | cons p ps ih =>
      intro cs
      by_cases hp : 0 < p.a
      · cases cs with
        | nil => simp [writeRow, hp, ih]
        | cons c cs2 => simp [writeRow, hp, ih, Pixel.withRGB_a]
      · simp [writeRow, hp, ih]

theorem writeRows_alphaGrid (rows : List (List Pixel)) : ∀ cs : List Color,
    alphaGrid (writeRows rows cs) = alphaGrid rows := by
  induction rows with
  | nil => intro cs; rfl
  | cons row rows ih =>
      intro cs
      simp [writeRows, alphaGrid] at ih ⊢
      exact ⟨writeRow_map_a row cs, ih _⟩

theorem smart_alphaGrid (fit : List Color → ℕ → KMeansResult) (img : Img) (k : ℕ)
    (out : Img) (h : smart_color_quantization fit img k = some out) :
    alphaGrid out = alphaGrid img := by
  simp only [smart_color_quantization] at h
  split at h
  · rw [Option.some.inj h]
  · split at h
    · exact absurd h (by simp)
    · rw [← Option.some.inj h, writeRows_alphaGrid]

theorem zipWith_row_map_a {β : Type} (f : Pixel → β → Pixel)
    (hf : ∀ p t, (f p t).a = p.a) :
    ∀ (row : List Pixel) (rb : List β), rb.length = row.length →
      (List.zipWith f row rb).map Pixel.a = row.map Pixel.a := by
  intro row
  induction row with
  | nil => intro rb _; simp
  | cons p ps ih =>
      intro rb hlen
      cases rb with
      | nil => simp at hlen
      | cons t tb =>
          simp only [List.zipWith_cons_cons, List.map_cons, hf]
          rw [ih tb (by simpa using hlen)]

theorem zipGridWith_alphaGrid {β : Type} (f : Pixel → β → Pixel)
    (hf : ∀ p t, (f p t).a = p.a) :
    ∀ (a : Img) (b : List (List β)), shape2 b = shape2 a →
      alphaGrid (zipGridWith f a b) = alphaGrid a := by
  intro a
  induction a with
  | nil => intro b _; simp [zipGridWith, alphaGrid]
  | cons row rows ih =>
      intro b hshape
      cases b with
      | nil => simp [shape2] at hshape
      | cons rb bs =>
          simp only [shape2, List.map_cons, List.cons.injEq] at hshape
          have hzip : zipGridWith f (row :: rows) (rb :: bs) =
              (List.zipWith f row rb) :: zipGridWith f rows bs := rfl
          have hag : ∀ (r : List Pixel) (rs : List (List Pixel)),
              alphaGrid (r :: rs) = (r.map Pixel.a) :: alphaGrid rs := fun _ _ => rfl
          rw [hzip, hag, hag, zipWith_row_map_a f hf row rb hshape.1, ih bs hshape.2]

theorem zipWith_length_eq {α β γ : Type} (f : α → β → γ) (a : List α) (b : List β)
    (h : b.length = a.length) : (List.zipWith f a b).length = a.length := by
  rw [List.length_zipWith, h, Nat.min_self]

theorem zipGrid_shape {α β : Type} : ∀ (a : List (List α)) (b : List (List β)),
    shape2 b = shape2 a → shape2 (zipGrid a b) = shape2 a := by
  intro a
  induction a with
  | nil => intro b _; simp [zipGrid, shape2]
  | cons row rows ih =>
      intro b hshape
      cases b with
      | nil => simp [shape2] at hshape
      | cons rb bs =>
          simp only [shape2, List.map_cons, List.cons.injEq] at hshape
          have hzip : zipGrid (row :: rows) (rb :: bs) =
              (List.zipWith Prod.mk row rb) :: zipGrid rows bs := rfl
          have hsh : ∀ (r : List (α × β)) (rs : List (List (α × β))),
              shape2 (r :: rs) = r.length :: shape2 rs := fun _ _ => rfl
          rw [hzip, hsh]
          have hsh2 : shape2 (row :: rows) = row.length :: shape2 rows := rfl
          rw [hsh2, zipWith_length_eq Prod.mk row rb hshape.1, ih bs hshape.2]

theorem channelPlane_shape (f : Pixel → ℕ) (img : Img) :
    shape2 (channelPlane f img) = shape2 img := by
  simp [channelPlane, shape2, List.map_map, Function.comp_def]

theorem blur_alphaGrid (gauss : ℚ → Plane → Plane) (img : Img) (sigma : ℚ)
    (hg : ∀ s pl, shape2 (gauss s pl) = shape2 pl) :
    alphaGrid (apply_gaussian_blur gauss img sigma) = alphaGrid img := by
  unfold apply_gaussian_blur
  have h1 : shape2 (gauss sigma (channelPlane Pixel.r img)) = shape2 img := by
    rw [hg, channelPlane_shape]
  have h2 : shape2 (gauss sigma (channelPlane Pixel.g img)) = shape2 img := by
    rw [hg, channelPlane_shape]
  have h3 : shape2 (gauss sigma (channelPlane Pixel.b img)) = shape2 img := by
    rw [hg, channelPlane_shape]
  have hz : shape2 (zipGrid (gauss sigma (channelPlane Pixel.g img))
      (gauss sigma (channelPlane Pixel.b img))) = shape2 img := by
    rw [zipGrid_shape _ _ (by rw [h2, h3]), h2]
  have hz2 : shape2 (zipGrid (gauss sigma (channelPlane Pixel.r img))
      (zipGrid (gauss sigma (channelPlane Pixel.g img))
        (gauss sigma (channelPlane Pixel.b img)))) = shape2 img := by
    rw [zipGrid_shape _ _ (by rw [hz, h1]), h1]
  exact zipGridWith_alphaGrid
    (fun p t => Pixel.mk (byteOfQ t.1) (byteOfQ t.2.1) (byteOfQ t.2.2) p.a)
    (fun p t => rfl) img _ hz2

theorem edge_alphaGrid (bilateral : List (List Color) → List (List Color)) (img : Img)
    (hb : ∀ g, shape2 (bilateral g) = shape2 g) :
    alphaGrid (edge_preserving_filter bilateral img) = alphaGrid img := by
  unfold edge_preserving_filter
  have h1 : shape2 (bilateral (img.map (fun row => row.map Pixel.rgb))) = shape2 img := by
    rw [hb]
    simp [shape2, List.map_map, Function.comp_def]
  exact zipGridWith_alphaGrid Pixel.withRGB (fun p t => rfl) img _ h1

theorem canonPixel_transparent (p : Pixel) (h : p.a = 0) : canonPixel p = p := by
  unfold canonPixel
  rw [if_neg]
  intro hc
  omega

theorem simplePixel_transparent (p : Pixel) (h : p.a = 0) : simplePixel p = p := by
  unfold simplePixel
  rw [if_neg]
  omega

theorem pixmap_transparent (g : Pixel → Pixel) (hg : ∀ p, p.a = 0 → g p = p) (img : Img)
    (y x : ℕ) (p : Pixel) (h : pixelAt img y x = some p) (hp : p.a = 0) :
    pixelAt (img.map (fun row => row.map g)) y x = some p := by
  rw [pixelAt_map, h]
  simp [hg p hp]

theorem writeRow_get_transparent (row : List Pixel) : ∀ (cs : List Color) (x : ℕ) (p : Pixel),
    row.get? x = some p → p.a = 0 → (writeRow row cs).1.get? x = some p := by
  induction row with
  | nil => intro cs x p hx _; simp at hx
  | cons q ps ih =>
      intro cs x p hx hp
      cases x with
      | zero =>
          rw [List.get?_cons_zero] at hx
          have hqp : q = p := Option.some.inj hx
          subst hqp
          have hq : ¬ 0 < q.a := by omega
          have hw : (writeRow (q :: ps) cs).1 = q :: (writeRow ps cs).1 := by
            simp [writeRow, hq]
          rw [hw, List.get?_cons_zero]
      | succ x =>
          rw [List.get?_cons_succ] at hx
          by_cases hq : 0 < q.a
          · cases cs with
            | nil =>
                have hw : (writeRow (q :: ps) ([] : List Color)).1 =
                    q :: (writeRow ps []).1 := by
                  simp [writeRow, hq]
                rw [hw, List.get?_cons_succ]
                exact ih [] x p hx hp
            | cons c cs2 =>
                have hw : (writeRow (q :: ps) (c :: cs2)).1 =
                    q.withRGB c :: (writeRow ps cs2).1 := by
                  simp [writeRow, hq]
                rw [hw, List.get?_cons_succ]
                exact ih cs2 x p hx hp
          · have hw : (writeRow (q :: ps) cs).1 = q :: (writeRow ps cs).1 := by
              simp [writeRow, hq]
            rw [hw, List.get?_cons_succ]
            exact ih cs x p hx hp

theorem writeRows_pixelAt_transparent (rows : List (List Pixel)) :
    ∀ (cs : List Color) (y x : ℕ) (p : Pixel),
      pixelAt rows y x = some p → p.a = 0 → pixelAt (writeRows rows cs) y x = some p := by
  induction rows with
  | nil => intro cs y x p hx _; simp [pixelAt] at hx
  | cons row rows ih =>
      intro cs y x p hx hp
      cases y with
      | zero =>
          have hx0 : row.get? x = some p := hx
          have : pixelAt (writeRows (row :: rows) cs) 0 x = (writeRow row cs).1.get? x := rfl
          rw [this]
          exact writeRow_get_transparent row cs x p hx0 hp
      | succ y =>
          have hx1 : pixelAt rows y x = some p := hx
          have : pixelAt (writeRows (row :: rows) cs) (y + 1) x =
              pixelAt (writeRows rows (writeRow row cs).2) y x := rfl
          rw [this]
          exact ih (writeRow row cs).2 y x p hx1 hp

theorem smart_transparent (fit : List Color → ℕ → KMeansResult) (img : Img) (k : ℕ)
    (out : Img) (h : smart_color_quantization fit img k = some out) :
    ∀ (y x : ℕ) (p : Pixel), pixelAt img y x = some p → p.a = 0 →
      pixelAt out y x = some p := by
  intro y x p hx hp
  simp only [smart_color_quantization] at h
  split at h
  · rw [← Option.some.inj h]
    exact hx
  · split at h
    · exact absurd h (by simp)
    · rw [← Option.some.inj h]
      exact writeRows_pixelAt_transparent img _ y x p hx hp

/-- Claim C2 (amended): for every strategy the alpha plane of the output
equals the alpha plane of the input (no stage ever writes the alpha
channel), and for the strategies whose pipelines contain neither blurring
nor error diffusion (`smart` and the fallback branch for every
unrecognized string) transparent pixels are returned bit-identically; the
`dithered`, `smooth` and `hybrid` pipelines may rewrite the (invisible)
RGB channels of alpha-0 pixels, as the counterexample shows, so full
bit-identity cannot be promised there.  The external Gaussian and
bilateral filters are assumed shape-preserving, as `scipy.ndimage` and
`cv2` guarantee. -/
theorem recolor_alpha_and_transparent (gauss : ℚ → Plane → Plane)
    (bilateral : List (List Color) → List (List Color))
    (fit : List Color → ℕ → KMeansResult) (m : String) (img out : Img)
    (hg : ∀ s pl, shape2 (gauss s pl) = shape2 pl)
    (hb : ∀ g, shape2 (bilateral g) = shape2 g)
    (h : recolor gauss bilateral fit img m = some out) :
    alphaGrid out = alphaGrid img ∧
    (m ≠ "dithered" → m ≠ "smooth" → m ≠ "hybrid" →
      ∀ (y x : ℕ) (p : Pixel), pixelAt img y x = some p → p.a = 0 →
        pixelAt out y x = some p) := by
  have hfinal_a : ∀ i : Img, alphaGrid (final_brand_mapping i) = alphaGrid i := by
    intro i
    exact pixmap_alphaGrid canonPixel canonPixel_a i
  have hsimple_a : ∀ i : Img, alphaGrid (simple_color_mapping i) = alphaGrid i := by
    intro i
    exact pixmap_alphaGrid simplePixel simplePixel_a i
  by_cases h1 : m = "smart"
  · subst h1
    have hform : recolor gauss bilateral fit img "smart" =
        (smart_color_quantization fit img 8).map final_brand_mapping := rfl
    rw [hform] at h
    cases hq : smart_color_quantization fit img 8 with
    | none => rw [hq] at h; simp at h
    | some mid =>
        rw [hq] at h
        simp only [Option.map_some'] at h
        have hout : out = final_brand_mapping mid := (Option.some.inj h).symm
        constructor
        · rw [hout, hfinal_a, smart_alphaGrid fit img 8 mid hq]
        · intro _ _ _ y x p hpx hp
          rw [hout]
          exact pixmap_transparent canonPixel canonPixel_transparent mid y x p
            (smart_transparent fit img 8 mid hq y x p hpx hp) hp
  by_cases h2 : m = "dithered"
  · subst h2
    have hform : recolor gauss bilateral fit img "dithered" =
        some (final_brand_mapping (floyd_steinberg_dither img brand_palette)) := rfl
    rw [hform] at h
    have hout : out = final_brand_mapping (floyd_steinberg_dither img brand_palette) :=
      (Option.some.inj h).symm
    constructor
    · rw [hout, hfinal_a, dither_alphaGrid]
    · intro hne
      exact absurd rfl hne
  by_cases h3 : m = "smooth"
  · subst h3
    have hform : recolor gauss bilateral fit img "smooth" =
        some (final_brand_mapping (simple_color_mapping
          (edge_preserving_filter bilateral (apply_gaussian_blur gauss img (3 / 5))))) := rfl
    rw [hform] at h
    have hout : out = final_brand_mapping (simple_color_mapping
        (edge_preserving_filter bilateral (apply_gaussian_blur gauss img (3 / 5)))) :=
      (Option.some.inj h).symm
    constructor
    · rw [hout, hfinal_a, hsimple_a, edge_alphaGrid bilateral _ hb,
        blur_alphaGrid gauss img (3 / 5) hg]
    · intro _ hne
      exact absurd rfl hne
  by_cases h4 : m = "hybrid"
  · subst h4
    have hform : recolor gauss bilateral fit img "hybrid" =
        ((smart_color_quantization fit (edge_preserving_filter bilateral img) 6).map
          (fun quantized => floyd_steinberg_dither quantized core_palette)).map
          final_brand_mapping := rfl
    rw [hform] at h
    cases hq : smart_color_quantization fit (edge_preserving_filter bilateral img) 6 with
    | none => rw [hq] at h; simp at h
    | some mid =>
        rw [hq] at h
        simp only [Option.map_some'] at h
        have hout : out = final_brand_mapping (floyd_steinberg_dither mid core_palette) :=
          (Option.some.inj h).symm
        constructor
        · rw [hout, hfinal_a, dither_alphaGrid,
            smart_alphaGrid fit (edge_preserving_filter bilateral img) 6 mid hq,
            edge_alphaGrid bilateral img hb]
        · intro _ _ hne
          exact absurd rfl hne
  · have hform : recolor gauss bilateral fit img m =
        some (final_brand_mapping (simple_color_mapping img)) := by
      simp [recolor, h1, h2, h3, h4]
    rw [hform] at h
    have hout : out = final_brand_mapping (simple_color_mapping img) :=
      (Option.some.inj h).symm
    constructor
    · rw [hout, hfinal_a, hsimple_a]
    · intro _ _ _ y x p hpx hp
      rw [hout]
      exact pixmap_transparent canonPixel canonPixel_transparent _ y x p
        (pixmap_transparent simplePixel simplePixel_transparent img y x p hpx hp) hp

/-- Witness for `recolor_alpha_and_transparent`: the `smart` strategy on
`dither_img` (which contains the transparent pixel `(50, 60, 70, 0)`),
with the concrete shape-preserving stand-ins for the external filters. -/
theorem recolor_alpha_and_transparent_witness :
    (∀ s pl, shape2 (idGauss s pl) = shape2 pl) ∧
    (∀ g, shape2 (idBilateral g) = shape2 g) ∧
    recolor idGauss idBilateral constFit dither_img "smart" =
      some [[⟨7, 27, 44, 255⟩, ⟨7, 27, 44, 255⟩, ⟨50, 60, 70, 0⟩],
            [⟨7, 27, 44, 255⟩, ⟨7, 27, 44, 255⟩, ⟨7, 27, 44, 255⟩]] ∧
    (alphaGrid [[⟨7, 27, 44, 255⟩, ⟨7, 27, 44, 255⟩, ⟨50, 60, 70, 0⟩],
        [⟨7, 27, 44, 255⟩, ⟨7, 27, 44, 255⟩, ⟨7, 27, 44, 255⟩]] = alphaGrid dither_img ∧
      (("smart" : String) ≠ "dithered" → ("smart" : String) ≠ "smooth" →
        ("smart" : String) ≠ "hybrid" →
        ∀ (y x : ℕ) (p : Pixel), pixelAt dither_img y x = some p → p.a = 0 →
          pixelAt [[⟨7, 27, 44, 255⟩, ⟨7, 27, 44, 255⟩, ⟨50, 60, 70, 0⟩],
            [⟨7, 27, 44, 255⟩, ⟨7, 27, 44, 255⟩, ⟨7, 27, 44, 255⟩]] y x = some p)) :=
  ⟨fun _ _ => rfl, fun _ => rfl, by decide,
    recolor_alpha_and_transparent idGauss idBilateral constFit "smart" dither_img
      [[⟨7, 27, 44, 255⟩, ⟨7, 27, 44, 255⟩, ⟨50, 60, 70, 0⟩],
       [⟨7, 27, 44, 255⟩, ⟨7, 27, 44, 255⟩, ⟨7, 27, 44, 255⟩]]
      (fun _ _ => rfl) (fun _ => rfl) (by decide)⟩
